import Mathlib

/-!
Shallow embedding of `backtrack.hpp` (LogicMachine): a small Prolog-style
unification engine.  The C++ code has a class hierarchy

  Expression  (abstract: operator==, operator(), is_unified, set_unified, arity)
  Atom<T>     (a typed value slot: m_value, m_is_unified)
  Fact        (an ordered tuple of Expression* parts)
  Rule        (formal args + body predicates; its operator() is a stub)
  Database<T> (name-indexed storage, plus an ownership pool m_atoms)

Atoms are heap objects mutated through pointers, so the embedding uses an
explicit store: each Atom is identified by a numeric id, and a `Store` maps
ids to the Atom's mutable state (`m_value`, `m_is_unified`).  The value type
parameter `T` of `Atom<T>` is modelled as a numeric type tag carried by the
expression (it is part of the C++ static type, fixed at creation); values of
every value type are modelled as `String` (the engine only ever compares
values for equality, and the default-constructed `std::string` is `""`).

`Expression::operator()` can dereference `args[0]` before any bounds check,
so the interpreter returns `Option (Bool × Store)`: `none` marks the
out-of-bounds access (undefined behavior in the C++), `some (r, s)` a normal
boolean return `r` with post-state `s`.
-/

/-- Mutable state of one `Atom<T>` object: `m_value` and `m_is_unified`. -/
structure AtomState where
  value : String
  unified : Bool
deriving DecidableEq

/-- Heap of Atom objects, indexed by id (the C++ object address). -/
def Store := Nat → AtomState

/-- Pointwise update of the heap at one atom id. -/
def setAtom (s : Store) (i : Nat) (a : AtomState) : Store :=
  fun j => if j = i then a else s j

/-- The closed set of `Expression` subclasses: `Atom<T>` (type tag + id),
`Fact` (its `m_parts`), `Rule` (its `m_args` and `m_predicates`). -/
inductive Expr where
  | atom (ty : Nat) (id : Nat)
  | fact (parts : List Expr)
  | rule (args : List Expr) (preds : List Expr)

/-- Virtual `is_unified()`: an Atom reads `m_is_unified`; `Fact::is_unified`
and `Rule::is_unified` both return `true` unconditionally. -/
def isUnifiedE : Expr → Store → Bool
  | .atom _ id, s => (s id).unified
  | .fact _, _ => true
  | .rule _ _, _ => true

/-- Virtual `set_unified(v)`: an Atom writes `m_is_unified`; `Fact` and
`Rule` ignore the call (empty bodies). -/
def setUnifiedE : Expr → Bool → Store → Store
  | .atom _ id, v, s => setAtom s id ⟨(s id).value, v⟩
  | .fact _, _, s => s
  | .rule _ _, _, s => s

/-- Dynamic-type test: is this expression an `Atom`? -/
def isAtomE : Expr → Bool
  | .atom _ _ => true
  | _ => false

/-- Virtual `arity()`: `Atom` returns 1, `Fact` its part count, `Rule` its
formal-argument count. -/
def exprArity : Expr → Nat
  | .atom _ _ => 1
  | .fact parts => parts.length
  | .rule rargs _ => rargs.length

/-- `ununified_positions`: indices of the args whose `is_unified()` is false,
in increasing order. -/
def ununifiedPositions (args : List Expr) (s : Store) : List Nat :=
  (List.range args.length).filter fun i => !(isUnifiedE (args.getD i (.fact [])) s)

/-- `restore_ununified`: call `set_unified(false)` on `args[pos]` for each
recorded position `pos`. -/
def restoreUnunified (positions : List Nat) (args : List Expr) (s : Store) : Store :=
  positions.foldl (fun acc pos => setUnifiedE (args.getD pos (.fact [])) false acc) s

mutual

/-- Virtual `operator()(std::vector<Expression*>& args)`, the unification
entry point, returning `none` for the C++ out-of-bounds access.

`Atom<T>::operator()` first forms `auto &arg_ref{*args[0]}` — out of bounds
when `args` is empty — then returns false if `args.size() != 1` or the
dynamic type of `*args[0]` is not `Atom<T>`; otherwise it binds an
un-unified arg to `m_value` (marking it unified) and returns true, or
compares values if the arg is already unified.

`Fact::operator()` fails on an arity mismatch, otherwise records the
un-unified positions and unifies each part against the corresponding
singleton argument in order, restoring the recorded positions and failing as
soon as one part fails.

`Rule::operator()` checks the arity and then returns false unconditionally
(the body is never consulted). -/
def exprCall : Expr → List Expr → Store → Option (Bool × Store)
  | .atom _ _, [], _ => none
  | .atom _ _, _ :: _ :: _, s => some (false, s)
  | .atom ty tid, [a0], s =>
    match a0 with
    | .atom ty0 id0 =>
      if ty0 = ty then
        if (s id0).unified then
          some (decide ((s id0).value = (s tid).value), s)
        else
          some (true, setAtom s id0 ⟨(s tid).value, true⟩)
      else
        some (false, s)
    | _ => some (false, s)
  | .fact parts, args, s =>
    if args.length ≠ parts.length then
      some (false, s)
    else
      factLoop parts 0 args (ununifiedPositions args s) s
  | .rule rargs _preds, args, s =>
    if args.length ≠ rargs.length then
      some (false, s)
    else
      some (false, s)

/-- The body of `Fact::operator()`'s for-loop: unify `parts[i]` against the
singleton vector `{args[i]}`; on the first failure restore the recorded
un-unified positions of the full argument list and return false. -/
def factLoop : List Expr → Nat → List Expr → List Nat → Store → Option (Bool × Store)
  | [], _, _, _, s => some (true, s)
  | p :: ps, i, args, unu, s =>
    match exprCall p [args.getD i (.fact [])] s with
    | none => none
    | some (false, s1) => some (false, restoreUnunified unu args s1)
    | some (true, s1) => factLoop ps (i + 1) args unu s1

end

/-- Id of the Atom stored at position `i` of an argument list, if position
`i` holds an Atom. -/
def atomIdAt (args : List Expr) (i : Nat) : Option Nat :=
  match args.getD i (.fact []) with
  | .atom _ id => some id
  | _ => none

/-- Ids of the Atoms appearing as (top-level) elements of an argument
list. -/
def topAtomIds : List Expr → List Nat
  | [] => []
  | .atom _ id :: rest => id :: topAtomIds rest
  | _ :: rest => topAtomIds rest

/-- The atom id `id` sits at one of the recorded positions of `args`. -/
def occursIn (unu : List Nat) (args : List Expr) (id : Nat) : Prop :=
  ∃ pos ∈ unu, atomIdAt args pos = some id

instance (unu : List Nat) (args : List Expr) (id : Nat) :
    Decidable (occursIn unu args id) := by
  unfold occursIn
  exact List.decidableBEx _ unu

/-!
The `Database<T>` model.  `m_expressions` is a name-indexed map whose
per-name vectors grow by `push_back`; `m_atoms` is the ownership pool of the
Atom objects the Database itself allocated.  Allocation (`new Atom<U>`) is
modelled by a fresh-id counter; a fresh un-unified `Atom<U>` carries the
default-constructed value, modelled as `""`.
-/

/-- One argument of `Database::add_fact`: either a plain C++ value (wrapped
into a unified `Atom<U>(value)`) or a `Variable<U>` placeholder (wrapped
into a fresh un-unified `Atom<U>`). -/
inductive FactArg where
  | value (ty : Nat) (v : String)
  | var (ty : Nat)

/-- One argument of `Database::add_rule`: a `Variable<U>` placeholder
(allocating a fresh un-unified `Atom<U>` in the pool) or a caller-supplied
`Expression*` (stored as-is). -/
inductive RuleArg where
  | var (ty : Nat)
  | expr (e : Expr)

/-- The `Database` state: `m_expressions` as an association list from name
to the per-name vector (in `push_back` order), the ownership pool
`m_atoms`, the heap of atom states, and the fresh-id counter standing for
the allocator. -/
structure DB where
  exprs : List (String × List Expr)
  atoms : List Expr
  store : Store
  nextId : Nat

/-- A freshly constructed `Database` with no entries. -/
def DB.empty : DB :=
  ⟨[], [], fun _ => ⟨"", false⟩, 0⟩

/-- Lookup of `m_expressions[name]` (`none` models `find == end`). -/
def mapFind (m : List (String × List Expr)) (name : String) : Option (List Expr) :=
  match m with
  | [] => none
  | (n, l) :: rest => if n = name then some l else mapFind rest name

/-- `m_expressions[name].push_back(e)`: append to the existing per-name
vector, or create a fresh singleton vector. -/
def mapAppend (m : List (String × List Expr)) (name : String) (e : Expr) :
    List (String × List Expr) :=
  match m with
  | [] => [(name, [e])]
  | (n, l) :: rest =>
    if n = name then (n, l ++ [e]) :: rest else (n, l) :: mapAppend rest name e

/-- `Database::add_atom`: allocate a new `Atom<U>` (unified with the given
value, or fresh and un-unified for a `Variable<U>`), record it in `m_atoms`,
and append it to the in-progress part list. -/
def DB.addAtom (db : DB) (a : FactArg) (soFar : List Expr) : DB × List Expr :=
  match a with
  | .value ty v =>
    let e := Expr.atom ty db.nextId
    (⟨db.exprs, db.atoms ++ [e], setAtom db.store db.nextId ⟨v, true⟩, db.nextId + 1⟩,
     soFar ++ [e])
  | .var ty =>
    let e := Expr.atom ty db.nextId
    (⟨db.exprs, db.atoms ++ [e], setAtom db.store db.nextId ⟨"", false⟩, db.nextId + 1⟩,
     soFar ++ [e])

/-- `Database::add_arg`: a caller-supplied `Expression*` is pushed onto the
in-progress list as-is (not recorded in `m_atoms`); a `Variable<U>`
allocates a fresh un-unified `Atom<U>` in the pool. -/
def DB.addArg (db : DB) (a : RuleArg) (soFar : List Expr) : DB × List Expr :=
  match a with
  | .expr e => (db, soFar ++ [e])
  | .var ty =>
    let e := Expr.atom ty db.nextId
    (⟨db.exprs, db.atoms ++ [e], setAtom db.store db.nextId ⟨"", false⟩, db.nextId + 1⟩,
     soFar ++ [e])

/-- One step of the `add_fact` fold expression `(add_atom(atoms, so_far), ...)`. -/
def addAtomStep (p : DB × List Expr) (a : FactArg) : DB × List Expr :=
  DB.addAtom p.1 a p.2

/-- One step of the `add_rule` fold expression `(add_arg(args, so_far), ...)`. -/
def addArgStep (p : DB × List Expr) (a : RuleArg) : DB × List Expr :=
  DB.addArg p.1 a p.2

/-- `Database::add_fact(name, atoms...)`: wrap each argument via `add_atom`
(left to right), build the `Fact`, and push it under `name`. -/
def DB.addFact (db : DB) (name : String) (fargs : List FactArg) : DB × Expr :=
  let p := fargs.foldl addAtomStep (db, [])
  let f := Expr.fact p.2
  (⟨mapAppend p.1.exprs name f, p.1.atoms, p.1.store, p.1.nextId⟩, f)

/-- `Database::add_rule(name, args...)`: wrap each argument via `add_arg`
(left to right), build the `Rule` with an empty predicate list, and push it
under `name`. -/
def DB.addRule (db : DB) (name : String) (rargs : List RuleArg) : DB × Expr :=
  let p := rargs.foldl addArgStep (db, [])
  let r := Expr.rule p.2 []
  (⟨mapAppend p.1.exprs name r, p.1.atoms, p.1.store, p.1.nextId⟩, r)

/-- `Database::get(name, arity)`: `nullptr` when the name is absent,
otherwise `find_if` over the per-name vector for the first expression of the
requested arity (`nullptr` when there is none). -/
def DB.get (db : DB) (name : String) (ar : Nat) : Option Expr :=
  match mapFind db.exprs name with
  | none => none
  | some l => l.find? fun e => exprArity e = ar

/-- One `Database` mutation: an `add_fact` call or an `add_rule` call. -/
inductive Op where
  | addFact (name : String) (fargs : List FactArg)
  | addRule (name : String) (rargs : List RuleArg)

/-- Run one mutation against the database. -/
def DB.runOp (db : DB) (op : Op) : DB :=
  match op with
  | .addFact name fargs => (db.addFact name fargs).1
  | .addRule name rargs => (db.addRule name rargs).1

/-- Run a sequence of mutations in order. -/
def DB.runOps (db : DB) (ops : List Op) : DB :=
  ops.foldl DB.runOp db

mutual

/-- All Atom expressions reachable from an expression (the expression
itself for an Atom; parts of a Fact; formal args and predicates of a
Rule). -/
def exprAtoms : Expr → List Expr
  | .atom ty id => [.atom ty id]
  | .fact parts => listAtoms parts
  | .rule rargs preds => listAtoms rargs ++ listAtoms preds

/-- All Atom expressions reachable from a list of expressions. -/
def listAtoms : List Expr → List Expr
  | [] => []
  | e :: rest => exprAtoms e ++ listAtoms rest

end

/-- The spec's ownership invariant: every Term reachable from the
name-indexed mapping is present in the ownership pool `m_atoms`. -/
def DB.wf (db : DB) : Prop :=
  ∀ name l, mapFind db.exprs name = some l →
    ∀ e ∈ l, ∀ a ∈ exprAtoms e, a ∈ db.atoms

/-- A mutation is pool-respecting when every caller-supplied `Expression*`
handed to `add_rule` only reaches Terms already in the pool. -/
def okOp (db : DB) : Op → Prop
  | .addFact _ _ => True
  | .addRule _ rargs => ∀ e, RuleArg.expr e ∈ rargs → ∀ a ∈ exprAtoms e, a ∈ db.atoms

/-- Every mutation of the sequence is pool-respecting in the state where it
runs. -/
def okOps : DB → List Op → Prop
  | _, [] => True
  | db, op :: rest => okOp db op ∧ okOps (db.runOp op) rest

/-!
Concrete instances used by the scenario theorems, counterexamples and
witnesses.  Type tag `0` stands for the `std::string` value type.
-/

/-- The database after `add_fact("parent", "alice", "bob")` (atom ids 0 and
1 are allocated for the two ground arguments). -/
def scenarioDB : DB :=
  (DB.empty.addFact "parent" [.value 0 "alice", .value 0 "bob"]).1

/-- The heap after additionally constructing the two query Atoms: id 2 is
an `Atom<string>("alice")` (unified) and id 3 a fresh un-unified
`Atom<string>`. -/
def scenarioStore : Store :=
  setAtom (setAtom scenarioDB.store 2 ⟨"alice", true⟩) 3 ⟨"", false⟩

/-- The query argument list `[bound("alice"), unbound]`. -/
def scenarioArgs : List Expr :=
  [.atom 0 2, .atom 0 3]

/-- A heap for the value-leak run: part Atoms 0 (`"x1"`) and 1 (`"x2"`)
are unified; query Atom 2 is un-unified with the default value, query
Atom 3 is unified with `"z"`. -/
def leakStore : Store := fun i =>
  if i = 0 then ⟨"x1", true⟩
  else if i = 1 then ⟨"x2", true⟩
  else if i = 2 then ⟨"", false⟩
  else if i = 3 then ⟨"z", true⟩
  else ⟨"", false⟩

/-- The fact `f(x1, x2)` over part Atoms 0 and 1. -/
def leakFact : Expr := .fact [.atom 0 0, .atom 0 1]

/-- The argument list `[unbound Atom 2, Atom 3 bound to "z"]`: position 0
unifies (binding Atom 2 to `"x1"`), position 1 fails (`"z" ≠ "x2"`). -/
def leakArgs : List Expr := [.atom 0 2, .atom 0 3]

/-- The database after `add_rule("r", p)` where `p` is a caller-supplied
pointer to an Atom the database never allocated (id 5). -/
def orphanDB : DB :=
  DB.runOps DB.empty [.addRule "r" [.expr (.atom 0 5)]]

/-- A heap of fresh default-constructed Atoms only. -/
def emptyStore : Store := fun _ => ⟨"", false⟩

/-- Result of the `typeid(arg_ref) == typeid(Atom<T>&)` comparison: the
argument's dynamic type is `Atom` with value-type tag `ty`. -/
def typeidMatchesAtom (ty : Nat) : Expr → Bool
  | .atom ty0 _ => ty0 == ty
  | _ => false

/-!
Helper lemmas about the rollback primitives.
-/

theorem setAtom_same (s : Store) (i : Nat) (a : AtomState) : setAtom s i a i = a := by
  simp [setAtom]

theorem setAtom_other (s : Store) (i j : Nat) (a : AtomState) (h : j ≠ i) :
    setAtom s i a j = s j := by
  simp [setAtom, h]

theorem restoreUnunified_nil (args : List Expr) (s : Store) :
    restoreUnunified [] args s = s := rfl

theorem restoreUnunified_cons (pos : Nat) (rest : List Nat) (args : List Expr) (s : Store) :
    restoreUnunified (pos :: rest) args s =
      restoreUnunified rest args (setUnifiedE (args.getD pos (.fact [])) false s) := rfl

theorem setUnifiedE_value (e : Expr) (v : Bool) (s : Store) (id : Nat) :
    ((setUnifiedE e v s) id).value = (s id).value := by
  cases e with
  | atom ty i0 =>
    by_cases h : id = i0
    · subst h; simp [setUnifiedE, setAtom_same]
    · simp [setUnifiedE, setAtom_other _ _ _ _ h]
  | fact parts => rfl
  | rule rargs preds => rfl

theorem restoreUnunified_value (unu : List Nat) (args : List Expr) (s : Store) (id : Nat) :
    ((restoreUnunified unu args s) id).value = (s id).value := by
  induction unu generalizing s with
  | nil => rfl
  | cons pos rest ih =>
    rw [restoreUnunified_cons, ih, setUnifiedE_value]

theorem occursIn_cons (pos : Nat) (rest : List Nat) (args : List Expr) (id : Nat) :
    occursIn (pos :: rest) args id ↔
      atomIdAt args pos = some id ∨ occursIn rest args id := by
  simp [occursIn]

theorem restoreUnunified_not_occurs (unu : List Nat) (args : List Expr) (s : Store)
    (id : Nat) (h : ¬ occursIn unu args id) :
    restoreUnunified unu args s id = s id := by
  induction unu generalizing s with
  | nil => rfl
  | cons pos rest ih =>
    rw [occursIn_cons] at h
    push_neg at h
    rw [restoreUnunified_cons, ih _ h.2]
    cases he : args.getD pos (.fact []) with
    | atom ty i0 =>
      have hne : id ≠ i0 := by
        intro hid
        apply h.1
        unfold atomIdAt
        rw [he, hid]
      simp [setUnifiedE, he, setAtom_other _ _ _ _ hne]
    | fact parts => simp [setUnifiedE, he]
    | rule rargs preds => simp [setUnifiedE, he]

theorem restoreUnunified_occurs (unu : List Nat) (args : List Expr) (s : Store)
    (id : Nat) (h : occursIn unu args id) :
    ((restoreUnunified unu args s) id).unified = false := by
  induction unu generalizing s with
  | nil => exact absurd h (by simp [occursIn])
  | cons pos rest ih =>
    rw [occursIn_cons] at h
    by_cases hrest : occursIn rest args id
    · rw [restoreUnunified_cons]; exact ih _ hrest
    · have hpos : atomIdAt args pos = some id := h.resolve_right hrest
      rw [restoreUnunified_cons, restoreUnunified_not_occurs _ _ _ _ hrest]
      unfold atomIdAt at hpos
      cases he : args.getD pos (.fact []) with
      | atom ty i0 =>
        rw [he] at hpos
        have : i0 = id := by injection hpos
        subst this
        simp [setUnifiedE, setAtom_same]
      | fact parts => rw [he] at hpos; exact absurd hpos (by simp)
      | rule rargs preds => rw [he] at hpos; exact absurd hpos (by simp)

theorem atomIdAt_lt_length (args : List Expr) (j id : Nat)
    (h : atomIdAt args j = some id) : j < args.length := by
  by_contra hj
  rw [atomIdAt, List.getD_eq_default _ _ (Nat.le_of_not_lt hj)] at h
  exact absurd h (by simp)

theorem mem_ununifiedPositions (args : List Expr) (s : Store) (j id : Nat)
    (h : atomIdAt args j = some id) (hu : (s id).unified = false) :
    occursIn (ununifiedPositions args s) args id := by
  refine ⟨j, ?_, h⟩
  rw [ununifiedPositions, List.mem_filter, List.mem_range]
  refine ⟨atomIdAt_lt_length args j id h, ?_⟩
  unfold atomIdAt at h
  cases he : args.getD j (.fact []) with
  | atom ty i0 =>
    rw [he] at h
    have : i0 = id := by injection h
    subst this
    simp [isUnifiedE, hu]
  | fact parts => rw [he] at h; exact absurd h (by simp)
  | rule rargs preds => rw [he] at h; exact absurd h (by simp)

theorem occurs_ununified (args : List Expr) (s : Store) (id : Nat)
    (h : occursIn (ununifiedPositions args s) args id) :
    (s id).unified = false := by
  obtain ⟨pos, hmem, hat⟩ := h
  rw [ununifiedPositions, List.mem_filter] at hmem
  unfold atomIdAt at hat
  cases he : args.getD pos (.fact []) with
  | atom ty i0 =>
    rw [he] at hat
    have : i0 = id := by injection hat
    subst this
    have := hmem.2
    rw [he] at this
    simpa [isUnifiedE] using this
  | fact parts => rw [he] at hat; exact absurd hat (by simp)
  | rule rargs preds => rw [he] at hat; exact absurd hat (by simp)

theorem mem_topAtomIds_of_mem (args : List Expr) (ty id : Nat)
    (h : Expr.atom ty id ∈ args) : id ∈ topAtomIds args := by
  induction args with
  | nil => exact absurd h (by simp)
  | cons a rest ih =>
    rcases List.mem_cons.mp h with ha | ha
    · rw [← ha]; simp [topAtomIds]
    · cases a with
      | atom ty0 i0 => exact List.mem_cons_of_mem _ (ih ha)
      | fact parts => exact ih ha
      | rule rargs preds => exact ih ha

theorem atomIdAt_mem_topAtomIds (args : List Expr) (i x : Nat)
    (h : atomIdAt args i = some x) : x ∈ topAtomIds args := by
  have hlt : i < args.length := atomIdAt_lt_length args i x h
  unfold atomIdAt at h
  cases he : args.getD i (.fact []) with
  | atom ty i0 =>
    rw [he] at h
    have hx : i0 = x := by injection h
    have hgd : args.getD i (.fact []) = args[i] := by
      rw [List.getD_eq_getElem?_getD, List.getElem?_eq_getElem hlt]; rfl
    have hmem : Expr.atom ty i0 ∈ args := by
      rw [← he, hgd]
      exact List.getElem_mem hlt
    rw [← hx]
    exact mem_topAtomIds_of_mem args ty i0 hmem
  | fact parts => rw [he] at h; exact absurd h (by simp)
  | rule rargs preds => rw [he] at h; exact absurd h (by simp)

theorem topAtomIds_getD_singleton (args : List Expr) (i x : Nat) :
    x ∈ topAtomIds [args.getD i (.fact [])] ↔ atomIdAt args i = some x := by
  unfold atomIdAt
  cases he : args.getD i (.fact []) with
  | atom ty i0 => simp [topAtomIds, eq_comm]
  | fact parts => simp [topAtomIds]
  | rule rargs preds => simp [topAtomIds]

/-!
Atomicity of `Fact::operator()`.  The loop lemma is parameterized by an
induction hypothesis about the recursive `operator()` calls on the parts;
the main lemma closes the recursion by strong induction on the size of the
callee expression.  The three conclusions: (1) an argument Atom that is
unified on entry is completely untouched, (2) only Atoms appearing in the
argument list are ever touched, (3) on a failing call every Atom's
`m_is_unified` flag is restored to its entry value.
-/

theorem factLoop_aux (ps : List Expr)
    (IH : ∀ p ∈ ps, ∀ args s r s', exprCall p args s = some (r, s') →
      ((∀ x, (s x).unified = true → s' x = s x) ∧
       (∀ x, x ∉ topAtomIds args → s' x = s x) ∧
       (r = false → ∀ x, (s' x).unified = (s x).unified))) :
    ∀ (i : Nat) (args : List Expr) (unu : List Nat) (s : Store) (r : Bool) (s' : Store),
      factLoop ps i args unu s = some (r, s') →
      (∀ j x, atomIdAt args j = some x → (s x).unified = false → occursIn unu args x) →
      ((∀ x, (s x).unified = true → ¬ occursIn unu args x → s' x = s x) ∧
       (∀ x, x ∉ topAtomIds args → s' x = s x) ∧
       (r = false → ∀ x,
         ((¬ occursIn unu args x → s' x = s x) ∧
          (occursIn unu args x → (s' x).unified = false)))) := by
  induction ps with
  | nil =>
    intro i args unu s r s' hrun hc
    have hred : factLoop [] i args unu s = some (true, s) := rfl
    rw [hred] at hrun
    obtain ⟨hr, hs⟩ : true = r ∧ s = s' := by
      simpa [Prod.ext_iff] using hrun
    subst hs
    refine ⟨fun x _ _ => rfl, fun x _ => rfl, fun hrf => ?_⟩
    rw [← hr] at hrf
    nomatch hrf
  | cons p ps ih =>
    intro i args unu s r s' hrun hc
    cases hcall : exprCall p [args.getD i (.fact [])] s with
    | none =>
      have hred : factLoop (p :: ps) i args unu s = none := by
        show (match exprCall p [args.getD i (.fact [])] s with
          | none => none
          | some (false, s1) => some (false, restoreUnunified unu args s1)
          | some (true, s1) => factLoop ps (i + 1) args unu s1) = none
        rw [hcall]
      rw [hred] at hrun
      nomatch hrun
    | some pr =>
      obtain ⟨r1, s1⟩ := pr
      obtain ⟨E1, E2, E3⟩ := IH p (List.mem_cons_self p ps) _ s r1 s1 hcall
      have hs1top : ∀ x, x ∉ topAtomIds args → s1 x = s x := by
        intro x hx
        apply E2
        simp only [topAtomIds_getD_singleton]
        intro hat
        exact hx (atomIdAt_mem_topAtomIds args i x hat)
      have hs1 : ∀ x, ¬ occursIn unu args x → s1 x = s x := by
        intro x hnot
        by_cases hu : (s x).unified = true
        · exact E1 x hu
        · have hu' : (s x).unified = false := by simpa using hu
          by_cases hat : atomIdAt args i = some x
          · exact absurd (hc i x hat hu') hnot
          · apply E2
            simp only [topAtomIds_getD_singleton]
            exact hat
      have hnotocc : ∀ x, x ∉ topAtomIds args → ¬ occursIn unu args x := by
        intro x hx hoc
        obtain ⟨pos, _, hat⟩ := hoc
        exact hx (atomIdAt_mem_topAtomIds args pos x hat)
      cases r1 with
      | false =>
        have hred : factLoop (p :: ps) i args unu s =
            some (false, restoreUnunified unu args s1) := by
          show (match exprCall p [args.getD i (.fact [])] s with
            | none => none
            | some (false, s1) => some (false, restoreUnunified unu args s1)
            | some (true, s1) => factLoop ps (i + 1) args unu s1) =
            some (false, restoreUnunified unu args s1)
          rw [hcall]
        rw [hred] at hrun
        obtain ⟨hr, hs⟩ : false = r ∧ restoreUnunified unu args s1 = s' := by
          simpa [Prod.ext_iff] using hrun
        subst hs
        refine ⟨?_, ?_, fun _ x => ⟨?_, ?_⟩⟩
        · intro x _ hnot
          rw [restoreUnunified_not_occurs _ _ _ _ hnot]
          exact hs1 x hnot
        · intro x hx
          rw [restoreUnunified_not_occurs _ _ _ _ (hnotocc x hx)]
          exact hs1top x hx
        · intro hnot
          rw [restoreUnunified_not_occurs _ _ _ _ hnot]
          exact hs1 x hnot
        · intro hoc
          exact restoreUnunified_occurs unu args s1 x hoc
      | true =>
        have hred : factLoop (p :: ps) i args unu s = factLoop ps (i + 1) args unu s1 := by
          show (match exprCall p [args.getD i (.fact [])] s with
            | none => none
            | some (false, s1) => some (false, restoreUnunified unu args s1)
            | some (true, s1) => factLoop ps (i + 1) args unu s1) =
            factLoop ps (i + 1) args unu s1
          rw [hcall]
        rw [hred] at hrun
        have hc1 : ∀ j x, atomIdAt args j = some x → (s1 x).unified = false →
            occursIn unu args x := by
          intro j x hat hu1
          by_cases hu : (s x).unified = true
          · rw [E1 x hu] at hu1
            rw [hu] at hu1
            nomatch hu1
          · exact hc j x hat (by simpa using hu)
        obtain ⟨F1, F2, F3⟩ :=
          ih (fun q hq => IH q (List.mem_cons_of_mem p hq)) (i + 1) args unu s1 r s' hrun hc1
        refine ⟨?_, ?_, fun hrf x => ⟨?_, ?_⟩⟩
        · intro x hb hnot
          have h1 : s1 x = s x := hs1 x hnot
          have hb1 : (s1 x).unified = true := by rw [h1]; exact hb
          rw [F1 x hb1 hnot]
          exact h1
        · intro x hx
          rw [F2 x hx]
          exact hs1top x hx
        · intro hnot
          rw [((F3 hrf x).1) hnot]
          exact hs1 x hnot
        · intro hoc
          exact (F3 hrf x).2 hoc

theorem exprCall_props : ∀ (n : Nat) (e : Expr), sizeOf e ≤ n →
    ∀ args s r s', exprCall e args s = some (r, s') →
    ((∀ x, (s x).unified = true → s' x = s x) ∧
     (∀ x, x ∉ topAtomIds args → s' x = s x) ∧
     (r = false → ∀ x, (s' x).unified = (s x).unified)) := by
  intro n
  induction n with
  | zero =>
    intro e he
    exact absurd he (by cases e <;> simp)
  | succ n ihn =>
    intro e he args s r s' hcall
    cases e with
    | atom ty tid =>
      cases args with
      | nil =>
        have hred : exprCall (Expr.atom ty tid) [] s = none := rfl
        rw [hred] at hcall
        nomatch hcall
      | cons a0 rest =>
        cases rest with
        | cons b rest2 =>
          have hred : exprCall (Expr.atom ty tid) (a0 :: b :: rest2) s = some (false, s) := rfl
          rw [hred] at hcall
          obtain ⟨hr, hs⟩ : false = r ∧ s = s' := by simpa [Prod.ext_iff] using hcall
          subst hs
          exact ⟨fun x _ => rfl, fun x _ => rfl, fun _ x => rfl⟩
        | nil =>
          cases a0 with
          | fact parts0 =>
            have hred : exprCall (Expr.atom ty tid) [Expr.fact parts0] s = some (false, s) := rfl
            rw [hred] at hcall
            obtain ⟨hr, hs⟩ : false = r ∧ s = s' := by simpa [Prod.ext_iff] using hcall
            subst hs
            exact ⟨fun x _ => rfl, fun x _ => rfl, fun _ x => rfl⟩
          | rule ra rp =>
            have hred : exprCall (Expr.atom ty tid) [Expr.rule ra rp] s = some (false, s) := rfl
            rw [hred] at hcall
            obtain ⟨hr, hs⟩ : false = r ∧ s = s' := by simpa [Prod.ext_iff] using hcall
            subst hs
            exact ⟨fun x _ => rfl, fun x _ => rfl, fun _ x => rfl⟩
          | atom ty0 id0 =>
            have hred : exprCall (Expr.atom ty tid) [Expr.atom ty0 id0] s =
                (if ty0 = ty then
                  (if (s id0).unified then
                    some (decide ((s id0).value = (s tid).value), s)
                  else
                    some (true, setAtom s id0 ⟨(s tid).value, true⟩))
                else some (false, s)) := rfl
            rw [hred] at hcall
            by_cases hty : ty0 = ty
            · rw [if_pos hty] at hcall
              by_cases hu : (s id0).unified
              · rw [if_pos hu] at hcall
                obtain ⟨hr, hs⟩ : decide ((s id0).value = (s tid).value) = r ∧ s = s' := by
                  simpa [Prod.ext_iff] using hcall
                subst hs
                exact ⟨fun x _ => rfl, fun x _ => rfl, fun _ x => rfl⟩
              · rw [if_neg hu] at hcall
                obtain ⟨hr, hs⟩ : true = r ∧ setAtom s id0 ⟨(s tid).value, true⟩ = s' := by
                  simpa [Prod.ext_iff] using hcall
                subst hs
                refine ⟨?_, ?_, ?_⟩
                · intro x hx
                  have hne : x ≠ id0 := by
                    intro hxe
                    rw [hxe] at hx
                    exact hu hx
                  exact setAtom_other _ _ _ _ hne
                · intro x hx
                  have hne : x ≠ id0 := by
                    intro hxe
                    exact hx (by rw [hxe]; simp [topAtomIds])
                  exact setAtom_other _ _ _ _ hne
                · intro hrf
                  rw [← hr] at hrf
                  nomatch hrf
            · rw [if_neg hty] at hcall
              obtain ⟨hr, hs⟩ : false = r ∧ s = s' := by simpa [Prod.ext_iff] using hcall
              subst hs
              exact ⟨fun x _ => rfl, fun x _ => rfl, fun _ x => rfl⟩
    | rule rargs preds =>
      have hred : exprCall (Expr.rule rargs preds) args s =
          (if args.length ≠ rargs.length then some (false, s) else some (false, s)) := rfl
      rw [hred, ite_self] at hcall
      obtain ⟨hr, hs⟩ : false = r ∧ s = s' := by simpa [Prod.ext_iff] using hcall
      subst hs
      exact ⟨fun x _ => rfl, fun x _ => rfl, fun _ x => rfl⟩
    | fact parts =>
      have hred : exprCall (Expr.fact parts) args s =
          (if args.length ≠ parts.length then some (false, s)
           else factLoop parts 0 args (ununifiedPositions args s) s) := rfl
      rw [hred] at hcall
      by_cases hlen : args.length ≠ parts.length
      · rw [if_pos hlen] at hcall
        obtain ⟨hr, hs⟩ : false = r ∧ s = s' := by simpa [Prod.ext_iff] using hcall
        subst hs
        exact ⟨fun x _ => rfl, fun x _ => rfl, fun _ x => rfl⟩
      · rw [if_neg hlen] at hcall
        have hsz : sizeOf parts ≤ n := by
          have : sizeOf (Expr.fact parts) = 1 + sizeOf parts := by simp
          omega
        have IH : ∀ p ∈ parts, ∀ args1 s1 r1 s1',
            exprCall p args1 s1 = some (r1, s1') →
            ((∀ x, (s1 x).unified = true → s1' x = s1 x) ∧
             (∀ x, x ∉ topAtomIds args1 → s1' x = s1 x) ∧
             (r1 = false → ∀ x, (s1' x).unified = (s1 x).unified)) := by
          intro p hp
          have : sizeOf p < sizeOf parts := List.sizeOf_lt_of_mem hp
          exact ihn p (by omega)
        obtain ⟨F1, F2, F3⟩ := factLoop_aux parts IH 0 args
          (ununifiedPositions args s) s r s' hcall
          (fun j x hat hu => mem_ununifiedPositions args s j x hat hu)
        refine ⟨?_, F2, ?_⟩
        · intro x hb
          refine F1 x hb ?_
          intro hoc
          have := occurs_ununified args s x hoc
          rw [hb] at this
          nomatch this
        · intro hrf x
          by_cases hoc : occursIn (ununifiedPositions args s) args x
          · rw [((F3 hrf x).2) hoc, occurs_ununified args s x hoc]
          · rw [((F3 hrf x).1) hoc]

/-!
Claim theorems.
-/

/-- C1 (counterexample): `Fact::operator()` is not value-atomic on failure.
On the concrete failing call `f(x1, x2)` applied to `[unbound, bound "z"]`,
position 0 binds the unbound Atom 2 to `"x1"`; position 1 fails and
`restore_ununified` resets only `m_is_unified`, so after the failed call
Atom 2 has its entry unified status back but a different stored value. -/
theorem fact_unify_value_leak :
    ∃ s', exprCall leakFact leakArgs leakStore = some (false, s') ∧
      (s' 2).unified = (leakStore 2).unified ∧
      (s' 2).value ≠ (leakStore 2).value :=
  ⟨_, rfl, rfl, by decide⟩

/-- C1 (amended): on every failing `Fact::operator()` call, every Atom's
`m_is_unified` flag after the call equals its flag before the call, and
every Atom that was unified before the call is completely unchanged (flag
and stored value); only the residual `m_value` of Atoms that were un-unified
on entry may differ. -/
theorem fact_unify_atomic_status (parts args : List Expr) (s s' : Store)
    (h : exprCall (Expr.fact parts) args s = some (false, s')) :
    (∀ x, (s' x).unified = (s x).unified) ∧
    (∀ x, (s x).unified = true → s' x = s x) := by
  obtain ⟨E1, _, E3⟩ := exprCall_props (sizeOf (Expr.fact parts)) (Expr.fact parts)
    (Nat.le_refl _) args s false s' h
  exact ⟨E3 rfl, E1⟩

/-- Witness for the amended C1 at the concrete failing call. -/
theorem fact_unify_atomic_status_witness :
    ∃ s', exprCall leakFact leakArgs leakStore = some (false, s') ∧
      (∀ x, (s' x).unified = (leakStore x).unified) ∧
      (∀ x, (leakStore x).unified = true → s' x = leakStore x) := by
  refine ⟨_, rfl, ?_, ?_⟩
  · exact (fact_unify_atomic_status [Expr.atom 0 0, Expr.atom 0 1] leakArgs
      leakStore _ rfl).1
  · exact (fact_unify_atomic_status [Expr.atom 0 0, Expr.atom 0 1] leakArgs
      leakStore _ rfl).2

/-- C2: `Rule::operator()` reports failure for every argument list — after
the arity comparison both paths return false and leave the heap unchanged,
whatever the Rule's formal arguments and body predicates are. -/
theorem rule_resolve_always_fails (rargs preds args : List Expr) (s : Store) :
    exprCall (Expr.rule rargs preds) args s = some (false, s) := by
  have hred : exprCall (Expr.rule rargs preds) args s =
      (if args.length ≠ rargs.length then some (false, s) else some (false, s)) := rfl
  rw [hred, ite_self]

/-- C3: after `add_fact("parent", "alice", "bob")` the stored Fact is found
under `"parent"` at arity 2, and unifying it against
`[bound("alice"), unbound]` succeeds and leaves the second argument unified
with value `"bob"`. -/
theorem fact_query_scenario :
    scenarioDB.get "parent" 2 = some (Expr.fact [Expr.atom 0 0, Expr.atom 0 1]) ∧
    ∃ s', exprCall (Expr.fact [Expr.atom 0 0, Expr.atom 0 1]) scenarioArgs scenarioStore =
        some (true, s') ∧
      (s' 3).unified = true ∧ (s' 3).value = "bob" :=
  ⟨rfl, _, rfl, rfl, rfl⟩

/-- C4: an argument list whose length differs from the declared arity makes
both `Fact::operator()` and `Rule::operator()` return false with the heap
unchanged (the un-unified positions are never even recorded). -/
theorem arity_mismatch_fails (parts rargs preds args : List Expr) (s : Store)
    (hf : args.length ≠ parts.length) (hr : args.length ≠ rargs.length) :
    exprCall (Expr.fact parts) args s = some (false, s) ∧
    exprCall (Expr.rule rargs preds) args s = some (false, s) := by
  constructor
  · have hred : exprCall (Expr.fact parts) args s =
        (if args.length ≠ parts.length then some (false, s)
         else factLoop parts 0 args (ununifiedPositions args s) s) := rfl
    rw [hred, if_pos hf]
  · have hred : exprCall (Expr.rule rargs preds) args s =
        (if args.length ≠ rargs.length then some (false, s) else some (false, s)) := rfl
    rw [hred, if_pos hr]

/-- Witness for C4 with a unary Fact and a unary Rule called on zero
arguments. -/
theorem arity_mismatch_fails_witness :
    exprCall (Expr.fact [Expr.atom 0 0]) [] emptyStore = some (false, emptyStore) ∧
    exprCall (Expr.rule [Expr.atom 0 0] []) [] emptyStore = some (false, emptyStore) :=
  arity_mismatch_fails [Expr.atom 0 0] [Expr.atom 0 0] [] [] emptyStore
    (by decide) (by decide)

/-- C5: unifying a unified Atom part against a unified Atom argument of the
same value type returns exactly the value comparison and never changes the
heap: equal values give true, unequal values give false, and in both cases
the argument keeps its value and unified status. -/
theorem atom_ground_unify (ty pid aid : Nat) (s : Store)
    (hp : (s pid).unified = true) (ha : (s aid).unified = true) :
    exprCall (Expr.atom ty pid) [Expr.atom ty aid] s =
      some (decide ((s aid).value = (s pid).value), s) ∧
    ((s aid).value = (s pid).value →
      exprCall (Expr.atom ty pid) [Expr.atom ty aid] s = some (true, s)) ∧
    ((s aid).value ≠ (s pid).value →
      exprCall (Expr.atom ty pid) [Expr.atom ty aid] s = some (false, s)) := by
  have hred : exprCall (Expr.atom ty pid) [Expr.atom ty aid] s =
      (if ty = ty then
        (if (s aid).unified then some (decide ((s aid).value = (s pid).value), s)
         else some (true, setAtom s aid ⟨(s pid).value, true⟩))
       else some (false, s)) := rfl
  rw [hred, if_pos rfl, if_pos ha]
  refine ⟨rfl, ?_, ?_⟩
  · intro hv
    rw [decide_eq_true hv]
  · intro hv
    rw [decide_eq_false hv]

/-- Witness for C5: part Atom 0 (`"x1"`) against itself succeeds, against
Atom 1 (`"x2"`) fails; the heap is returned unchanged in both cases. -/
theorem atom_ground_unify_witness :
    exprCall (Expr.atom 0 0) [Expr.atom 0 0] leakStore = some (true, leakStore) ∧
    exprCall (Expr.atom 0 0) [Expr.atom 0 1] leakStore = some (false, leakStore) :=
  ⟨(atom_ground_unify 0 0 0 leakStore (by decide) (by decide)).2.1 (by decide),
   (atom_ground_unify 0 0 1 leakStore (by decide) (by decide)).2.2 (by decide)⟩

/-- C6: when the single argument's dynamic type is not `Atom<T>` (an Atom
of a different value type, or a Fact or Rule), `Atom<T>::operator()`
returns the ordinary boolean failure with the heap unchanged — no separate
error path and no crash (the result is a `some`, not the out-of-bounds
`none`). -/
theorem atom_type_mismatch_fails (ty tid : Nat) (e : Expr) (s : Store)
    (h : typeidMatchesAtom ty e = false) :
    exprCall (Expr.atom ty tid) [e] s = some (false, s) := by
  cases e with
  | atom ty0 id0 =>
    have hty : ¬ ty0 = ty := by simpa [typeidMatchesAtom] using h
    have hred : exprCall (Expr.atom ty tid) [Expr.atom ty0 id0] s =
        (if ty0 = ty then
          (if (s id0).unified then some (decide ((s id0).value = (s tid).value), s)
           else some (true, setAtom s id0 ⟨(s tid).value, true⟩))
         else some (false, s)) := rfl
    rw [hred, if_neg hty]
  | fact parts => rfl
  | rule rargs preds => rfl

/-- Witness for C6: an `Atom` of tag 1 and a `Fact` both fail against an
`Atom` of tag 0. -/
theorem atom_type_mismatch_fails_witness :
    exprCall (Expr.atom 0 0) [Expr.atom 1 7] emptyStore = some (false, emptyStore) ∧
    exprCall (Expr.atom 0 0) [Expr.fact []] emptyStore = some (false, emptyStore) :=
  ⟨atom_type_mismatch_fails 0 0 (Expr.atom 1 7) emptyStore (by decide),
   atom_type_mismatch_fails 0 0 (Expr.fact []) emptyStore (by decide)⟩

/-- C9 (code behavior at the failing input): `Atom::operator()` evaluates
`*args[0]` before the `args.size() != 1` test, so the empty argument vector
is an out-of-bounds access (modelled as `none`) instead of a false return;
a two-element vector does return false without touching the heap. -/
theorem atom_empty_args_oob :
    exprCall (Expr.atom 0 0) [] emptyStore = none ∧
    exprCall (Expr.atom 0 0) [Expr.atom 0 1, Expr.atom 0 2] emptyStore =
      some (false, emptyStore) :=
  ⟨rfl, rfl⟩

/-- C10: `Fact::is_unified` and `Rule::is_unified` always return true,
`Fact::set_unified` and `Rule::set_unified` change nothing, and therefore
`restore_ununified` over positions holding only non-Atom expressions leaves
the heap exactly as it was — only Atoms ever change unification status. -/
theorem fact_rule_unified_noop :
    (∀ parts s, isUnifiedE (Expr.fact parts) s = true) ∧
    (∀ rargs preds s, isUnifiedE (Expr.rule rargs preds) s = true) ∧
    (∀ parts v s, setUnifiedE (Expr.fact parts) v s = s) ∧
    (∀ rargs preds v s, setUnifiedE (Expr.rule rargs preds) v s = s) ∧
    (∀ positions args s,
      (∀ pos ∈ positions, isAtomE (args.getD pos (Expr.fact [])) = false) →
      restoreUnunified positions args s = s) := by
  refine ⟨fun _ _ => rfl, fun _ _ _ => rfl, fun _ _ _ => rfl, fun _ _ _ _ => rfl, ?_⟩
  intro positions args
  induction positions with
  | nil => intro s _; rfl
  | cons pos rest ih =>
    intro s h
    rw [restoreUnunified_cons]
    have h1 : isAtomE (args.getD pos (Expr.fact [])) = false :=
      h pos (List.mem_cons_self _ _)
    have h2 : setUnifiedE (args.getD pos (Expr.fact [])) false s = s := by
      cases he : args.getD pos (Expr.fact []) with
      | atom ty i0 =>
        rw [he] at h1
        simp [isAtomE] at h1
      | fact ps => rfl
      | rule ra rp => rfl
    rw [h2]
    exact ih s (fun q hq => h q (List.mem_cons_of_mem _ hq))

/-- Witness for C10: restoring position 0 of an argument list holding a
Fact is a no-op on the heap. -/
theorem fact_rule_unified_noop_witness :
    restoreUnunified [0] [Expr.fact []] emptyStore = emptyStore :=
  fact_rule_unified_noop.2.2.2.2 [0] [Expr.fact []] emptyStore (by decide)

/-!
Lookup lemmas for `Database::get` and the name-indexed map.
-/

theorem find?_first_match {α : Type} (p : α → Bool) (d : α) :
    ∀ (l : List α) (e : α), l.find? p = some e →
      e ∈ l ∧ p e = true ∧ ∃ i, i < l.length ∧ l.getD i d = e ∧
        ∀ j, j < i → p (l.getD j d) = false := by
  intro l
  induction l with
  | nil => intro e h; nomatch h
  | cons a rest ih =>
    intro e h
    by_cases hp : p a = true
    · rw [List.find?_cons_of_pos _ hp] at h
      have he : a = e := by injection h
      subst he
      exact ⟨List.mem_cons_self _ _, hp,
        0, by simp, List.getD_cons_zero, fun j hj => absurd hj (by omega)⟩
    · rw [List.find?_cons_of_neg _ hp] at h
      obtain ⟨hmem, hpe, i, hi, hgd, hbefore⟩ := ih e h
      refine ⟨List.mem_cons_of_mem _ hmem, hpe, i + 1, by simpa using hi, ?_, ?_⟩
      · rw [List.getD_cons_succ]
        exact hgd
      · intro j hj
        cases j with
        | zero =>
          rw [List.getD_cons_zero]
          exact Bool.not_eq_true _ ▸ Bool.of_not_eq_true hp
        | succ j0 =>
          rw [List.getD_cons_succ]
          exact hbefore j0 (by omega)

theorem mapFind_mapAppend (m : List (String × List Expr)) (name : String) (e : Expr) :
    mapFind (mapAppend m name e) name = some ((mapFind m name).getD [] ++ [e]) := by
  induction m with
  | nil => simp [mapFind, mapAppend]
  | cons hd rest ih =>
    obtain ⟨n, l⟩ := hd
    by_cases h : n = name
    · subst h
      simp [mapFind, mapAppend]
    · simp [mapFind, mapAppend, h, ih]

theorem mapFind_mapAppend_ne (m : List (String × List Expr)) (name name' : String)
    (e : Expr) (h : name' ≠ name) :
    mapFind (mapAppend m name e) name' = mapFind m name' := by
  induction m with
  | nil => simp [mapFind, mapAppend, Ne.symm h]
  | cons hd rest ih =>
    obtain ⟨n, l⟩ := hd
    by_cases hn : n = name
    · subst hn
      simp [mapFind, mapAppend, Ne.symm h]
    · simp only [mapAppend, if_neg hn]
      by_cases hn' : n = name'
      · subst hn'
        simp [mapFind]
      · simp [mapFind, hn', ih]

/-- C7: `Database::get(name, arity)` returns `nullptr` when the name is
unregistered or no stored expression under it has the requested arity, and
otherwise returns exactly the first expression of that arity in the
per-name stored vector (earlier positions all have a different arity).  The
per-name vector is in registration order: pushing a new expression appends
it at the end.  `get` takes no heap and can touch no Term. -/
theorem db_get_first_match (db : DB) (name : String) (ar : Nat) :
    (mapFind db.exprs name = none → db.get name ar = none) ∧
    (∀ l, mapFind db.exprs name = some l →
      ((∀ e ∈ l, exprArity e ≠ ar) → db.get name ar = none) ∧
      (∀ e, db.get name ar = some e →
        e ∈ l ∧ exprArity e = ar ∧
        ∃ i, i < l.length ∧ l.getD i (Expr.fact []) = e ∧
          ∀ j, j < i → exprArity (l.getD j (Expr.fact [])) ≠ ar)) ∧
    (∀ e, mapFind (mapAppend db.exprs name e) name =
      some ((mapFind db.exprs name).getD [] ++ [e])) := by
  refine ⟨?_, ?_, fun e => mapFind_mapAppend db.exprs name e⟩
  · intro h
    unfold DB.get
    rw [h]
  · intro l hl
    constructor
    · intro hne
      unfold DB.get
      rw [hl]
      simp only [List.find?_eq_none]
      intro e he
      simp [hne e he]
    · intro e hget
      unfold DB.get at hget
      rw [hl] at hget
      obtain ⟨hmem, hpe, i, hi, hgd, hbefore⟩ :=
        find?_first_match (fun e => exprArity e = ar) (Expr.fact []) l e hget
      refine ⟨hmem, by simpa using hpe, i, hi, hgd, ?_⟩
      intro j hj
      have := hbefore j hj
      simpa using this

/-- Witness for C7: lookups against the empty database and against the
scenario database with a wrong arity both return `nullptr`, and the stored
scenario Fact is returned for arity 2 with the first-match properties. -/
theorem db_get_first_match_witness :
    DB.empty.get "parent" 2 = none ∧
    scenarioDB.get "parent" 3 = none ∧
    (Expr.fact [Expr.atom 0 0, Expr.atom 0 1] ∈
        [Expr.fact [Expr.atom 0 0, Expr.atom 0 1]] ∧
      exprArity (Expr.fact [Expr.atom 0 0, Expr.atom 0 1]) = 2 ∧
      ∃ i, i < 1 ∧
        [Expr.fact [Expr.atom 0 0, Expr.atom 0 1]].getD i (Expr.fact []) =
          Expr.fact [Expr.atom 0 0, Expr.atom 0 1] ∧
        ∀ j, j < i →
          exprArity ([Expr.fact [Expr.atom 0 0, Expr.atom 0 1]].getD j (Expr.fact [])) ≠ 2) :=
  ⟨(db_get_first_match DB.empty "parent" 2).1 rfl,
   ((db_get_first_match scenarioDB "parent" 3).2.1 _ rfl).1 (by decide),
   ((db_get_first_match scenarioDB "parent" 2).2.1 _ rfl).2 _ rfl⟩

/-!
Ownership-pool lemmas for C8.
-/

theorem mem_listAtoms (l : List Expr) (a : Expr) :
    a ∈ listAtoms l ↔ ∃ e ∈ l, a ∈ exprAtoms e := by
  induction l with
  | nil => simp [listAtoms]
  | cons e rest ih => simp [listAtoms, List.mem_append, ih]

theorem addAtomFold_spec (fargs : List FactArg) :
    ∀ (db : DB) (soFar : List Expr),
      (∀ e ∈ soFar, ∀ a ∈ exprAtoms e, a ∈ db.atoms) →
      ((∀ x ∈ db.atoms, x ∈ (fargs.foldl addAtomStep (db, soFar)).1.atoms) ∧
       (∀ e ∈ (fargs.foldl addAtomStep (db, soFar)).2, ∀ a ∈ exprAtoms e,
          a ∈ (fargs.foldl addAtomStep (db, soFar)).1.atoms) ∧
       (fargs.foldl addAtomStep (db, soFar)).1.exprs = db.exprs) := by
  induction fargs with
  | nil =>
    intro db soFar hso
    exact ⟨fun x hx => hx, hso, rfl⟩
  | cons a rest ih =>
    intro db soFar hso
    rw [List.foldl_cons]
    cases a with
    | value ty v =>
      have hred : addAtomStep (db, soFar) (FactArg.value ty v) =
          (⟨db.exprs, db.atoms ++ [Expr.atom ty db.nextId],
            setAtom db.store db.nextId ⟨v, true⟩, db.nextId + 1⟩,
           soFar ++ [Expr.atom ty db.nextId]) := rfl
      rw [hred]
      obtain ⟨I1, I2, I3⟩ := ih
        ⟨db.exprs, db.atoms ++ [Expr.atom ty db.nextId],
          setAtom db.store db.nextId ⟨v, true⟩, db.nextId + 1⟩
        (soFar ++ [Expr.atom ty db.nextId])
        (by
          intro e he a ha
          rcases List.mem_append.mp he with h1 | h1
          · exact List.mem_append_left _ (hso e h1 a ha)
          · have he2 : e = Expr.atom ty db.nextId := by simpa using h1
            subst he2
            have ha2 : a = Expr.atom ty db.nextId := by
              simpa [exprAtoms] using ha
            subst ha2
            exact List.mem_append_right _ (by simp))
      exact ⟨fun x hx => I1 x (List.mem_append_left _ hx), I2, I3⟩
    | var ty =>
      have hred : addAtomStep (db, soFar) (FactArg.var ty) =
          (⟨db.exprs, db.atoms ++ [Expr.atom ty db.nextId],
            setAtom db.store db.nextId ⟨"", false⟩, db.nextId + 1⟩,
           soFar ++ [Expr.atom ty db.nextId]) := rfl
      rw [hred]
      obtain ⟨I1, I2, I3⟩ := ih
        ⟨db.exprs, db.atoms ++ [Expr.atom ty db.nextId],
          setAtom db.store db.nextId ⟨"", false⟩, db.nextId + 1⟩
        (soFar ++ [Expr.atom ty db.nextId])
        (by
          intro e he a ha
          rcases List.mem_append.mp he with h1 | h1
          · exact List.mem_append_left _ (hso e h1 a ha)
          · have he2 : e = Expr.atom ty db.nextId := by simpa using h1
            subst he2
            have ha2 : a = Expr.atom ty db.nextId := by
              simpa [exprAtoms] using ha
            subst ha2
            exact List.mem_append_right _ (by simp))
      exact ⟨fun x hx => I1 x (List.mem_append_left _ hx), I2, I3⟩

theorem addArgFold_spec (rargs : List RuleArg) :
    ∀ (db : DB) (soFar : List Expr),
      (∀ e, RuleArg.expr e ∈ rargs → ∀ a ∈ exprAtoms e, a ∈ db.atoms) →
      (∀ e ∈ soFar, ∀ a ∈ exprAtoms e, a ∈ db.atoms) →
      ((∀ x ∈ db.atoms, x ∈ (rargs.foldl addArgStep (db, soFar)).1.atoms) ∧
       (∀ e ∈ (rargs.foldl addArgStep (db, soFar)).2, ∀ a ∈ exprAtoms e,
          a ∈ (rargs.foldl addArgStep (db, soFar)).1.atoms) ∧
       (rargs.foldl addArgStep (db, soFar)).1.exprs = db.exprs) := by
  induction rargs with
  | nil =>
    intro db soFar _ hso
    exact ⟨fun x hx => hx, hso, rfl⟩
  | cons a rest ih =>
    intro db soFar hexpr hso
    rw [List.foldl_cons]
    cases a with
    | var ty =>
      have hred : addArgStep (db, soFar) (RuleArg.var ty) =
          (⟨db.exprs, db.atoms ++ [Expr.atom ty db.nextId],
            setAtom db.store db.nextId ⟨"", false⟩, db.nextId + 1⟩,
           soFar ++ [Expr.atom ty db.nextId]) := rfl
      rw [hred]
      obtain ⟨I1, I2, I3⟩ := ih
        ⟨db.exprs, db.atoms ++ [Expr.atom ty db.nextId],
          setAtom db.store db.nextId ⟨"", false⟩, db.nextId + 1⟩
        (soFar ++ [Expr.atom ty db.nextId])
        (by
          intro e he a ha
          exact List.mem_append_left _
            (hexpr e (List.mem_cons_of_mem _ he) a ha))
        (by
          intro e he a ha
          rcases List.mem_append.mp he with h1 | h1
          · exact List.mem_append_left _ (hso e h1 a ha)
          · have he2 : e = Expr.atom ty db.nextId := by simpa using h1
            subst he2
            have ha2 : a = Expr.atom ty db.nextId := by
              simpa [exprAtoms] using ha
            subst ha2
            exact List.mem_append_right _ (by simp))
      exact ⟨fun x hx => I1 x (List.mem_append_left _ hx), I2, I3⟩
    | expr e0 =>
      have hred : addArgStep (db, soFar) (RuleArg.expr e0) = (db, soFar ++ [e0]) := rfl
      rw [hred]
      exact ih db (soFar ++ [e0])
        (fun e he a ha => hexpr e (List.mem_cons_of_mem _ he) a ha)
        (by
          intro e he a ha
          rcases List.mem_append.mp he with h1 | h1
          · exact hso e h1 a ha
          · have he2 : e = e0 := by simpa using h1
            subst he2
            exact hexpr e (List.mem_cons_self _ _) a ha)

theorem runOp_wf (db : DB) (op : Op) (hwf : DB.wf db) (hok : okOp db op) :
    DB.wf (db.runOp op) := by
  cases op with
  | addFact name fargs =>
    obtain ⟨I1, I2, I3⟩ := addAtomFold_spec fargs db [] (by intro e he; nomatch he)
    intro name' l' hfind e he a ha
    have hexprs : (db.runOp (Op.addFact name fargs)).exprs =
        mapAppend (fargs.foldl addAtomStep (db, [])).1.exprs name
          (Expr.fact (fargs.foldl addAtomStep (db, [])).2) := rfl
    have hatoms : (db.runOp (Op.addFact name fargs)).atoms =
        (fargs.foldl addAtomStep (db, [])).1.atoms := rfl
    rw [hexprs] at hfind
    rw [hatoms]
    by_cases hname : name' = name
    · subst hname
      rw [mapFind_mapAppend, I3] at hfind
      have hl' : l' = (mapFind db.exprs name').getD [] ++
          [Expr.fact (fargs.foldl addAtomStep (db, [])).2] := by
        injection hfind with h1
        exact h1.symm
      subst hl'
      rcases List.mem_append.mp he with h1 | h1
      · cases hfound : mapFind db.exprs name' with
        | none => rw [hfound] at h1; nomatch h1
        | some l0 =>
          rw [hfound] at h1
          exact I1 a (hwf name' l0 hfound e h1 a ha)
      · have he2 : e = Expr.fact (fargs.foldl addAtomStep (db, [])).2 := by
          simpa using h1
        subst he2
        have ha2 : a ∈ listAtoms (fargs.foldl addAtomStep (db, [])).2 := ha
        obtain ⟨e1, he1, ha1⟩ := (mem_listAtoms _ a).mp ha2
        exact I2 e1 he1 a ha1
    · rw [mapFind_mapAppend_ne _ _ _ _ hname, I3] at hfind
      exact I1 a (hwf name' l' hfind e he a ha)
  | addRule name rargs =>
    obtain ⟨I1, I2, I3⟩ := addArgFold_spec rargs db []
      (fun e he a ha => hok e he a ha) (by intro e he; nomatch he)
    intro name' l' hfind e he a ha
    have hexprs : (db.runOp (Op.addRule name rargs)).exprs =
        mapAppend (rargs.foldl addArgStep (db, [])).1.exprs name
          (Expr.rule (rargs.foldl addArgStep (db, [])).2 []) := rfl
    have hatoms : (db.runOp (Op.addRule name rargs)).atoms =
        (rargs.foldl addArgStep (db, [])).1.atoms := rfl
    rw [hexprs] at hfind
    rw [hatoms]
    by_cases hname : name' = name
    · subst hname
      rw [mapFind_mapAppend, I3] at hfind
      have hl' : l' = (mapFind db.exprs name').getD [] ++
          [Expr.rule (rargs.foldl addArgStep (db, [])).2 []] := by
        injection hfind with h1
        exact h1.symm
      subst hl'
      rcases List.mem_append.mp he with h1 | h1
      · cases hfound : mapFind db.exprs name' with
        | none => rw [hfound] at h1; nomatch h1
        | some l0 =>
          rw [hfound] at h1
          exact I1 a (hwf name' l0 hfound e h1 a ha)
      · have he2 : e = Expr.rule (rargs.foldl addArgStep (db, [])).2 [] := by
          simpa using h1
        subst he2
        have ha2 : a ∈ listAtoms (rargs.foldl addArgStep (db, [])).2 := by
          have : exprAtoms (Expr.rule (rargs.foldl addArgStep (db, [])).2 []) =
              listAtoms (rargs.foldl addArgStep (db, [])).2 ++ listAtoms [] := rfl
          rw [this] at ha
          simpa [listAtoms] using ha
        obtain ⟨e1, he1, ha1⟩ := (mem_listAtoms _ a).mp ha2
        exact I2 e1 he1 a ha1
    · rw [mapFind_mapAppend_ne _ _ _ _ hname, I3] at hfind
      exact I1 a (hwf name' l' hfind e he a ha)

/-- C8 (counterexample): `add_arg(Expression*)` stores a caller-supplied
pointer without recording it in `m_atoms`, so after
`add_rule("r", p)` with `p` an Atom the database never allocated, the Rule
reachable from the mapping holds a Term that is not in the ownership
pool. -/
theorem add_rule_orphan : ¬ DB.wf orphanDB := by
  intro h
  have h1 : mapFind orphanDB.exprs "r" = some [Expr.rule [Expr.atom 0 5] []] := rfl
  have hmem : Expr.atom 0 5 ∈ exprAtoms (Expr.rule [Expr.atom 0 5] []) := by
    have : exprAtoms (Expr.rule [Expr.atom 0 5] []) = [Expr.atom 0 5] := rfl
    rw [this]
    simp
  have h2 := h "r" _ h1 (Expr.rule [Expr.atom 0 5] [])
    (List.mem_cons_self _ _) (Expr.atom 0 5) hmem
  have h3 : orphanDB.atoms = ([] : List Expr) := rfl
  rw [h3] at h2
  nomatch h2

/-- C8 (amended): after any sequence of `add_fact` and `add_rule` calls in
which every caller-supplied `Expression*` argument of `add_rule` reaches
only Terms already in the ownership pool at that moment (in particular for
value and `Variable` arguments, which the Database wraps in Atoms it
allocates itself), every Term reachable from the name-indexed mapping is in
the ownership pool `m_atoms`. -/
theorem add_pool_invariant (ops : List Op) : ∀ db : DB, DB.wf db → okOps db ops →
    DB.wf (DB.runOps db ops) := by
  induction ops with
  | nil => intro db h _; exact h
  | cons op rest ih =>
    intro db hwf hok
    obtain ⟨h1, h2⟩ := hok
    exact ih (db.runOp op) (runOp_wf db op hwf h1) h2

/-- Witness for the amended C8: a fact and a two-variable rule added to an
empty database leave no orphaned Terms. -/
theorem add_pool_invariant_witness :
    DB.wf (DB.runOps DB.empty
      [Op.addFact "parent" [FactArg.value 0 "alice", FactArg.value 0 "bob"],
       Op.addRule "anc" [RuleArg.var 0, RuleArg.var 0]]) :=
  add_pool_invariant
    [Op.addFact "parent" [FactArg.value 0 "alice", FactArg.value 0 "bob"],
     Op.addRule "anc" [RuleArg.var 0, RuleArg.var 0]]
    DB.empty
    (by intro name l h; nomatch h)
    (by simp [okOps, okOp])
